/-
Verification development for the free-list memory allocator in `src/Mem.c`.

The allocator manages a singly linked list of blocks (`heapList`), each a
header followed by a payload.  We shallow-embed it as follows:

* a `Block` carries its header address, payload size and free flag; the C
  `next` pointer is represented by adjacency in a Lean `List Block` (the
  list is kept in the order the C list links blocks);
* machine integers are `Nat` with explicit `% 2 ^ 64` where the C code can
  wrap (`ALIGN4` on a `size_t`, `nmemb * size` in `calloc`), and the
  `int`-typed trackers of the best/worst-fit scans are `Int` with the C
  conversion rules made explicit;
* payload bytes live in a separate `mem : Nat → Nat` map (the allocator
  itself never reads payload bytes; `calloc`/`realloc` write them);
* a failed `assert` aborts the process; fallible operations therefore
  return `CResult`, whose `abort` constructor models an assertion failure;
* the OS primitive `sbrk` is modelled by the current program break
  `brk : Nat` plus a boolean `osGrant` saying whether the one growth
  request a call can make would be granted; a denied `sbrk` returns the
  sentinel `(void *)-1`, i.e. address `2 ^ 64 - 1`.

The four build-time placement strategies (`FIT`/`BEST`/`WORST`/`NEXT`
preprocessor branches of `findFreeBlock`) are the four constructors of
`Strategy`; the `NEXT` cursor `actualLast` is part of the state.
-/
import Mathlib

namespace MemAlloc

/-- `2 ^ 64`, the modulus of `size_t` / pointer arithmetic on LP64. -/
def U64 : Nat := 2 ^ 64

/-- `sizeof(struct _block)` on LP64: `size_t` (8) + pointer (8) + `bool`
(1) + `char padding[3]` (3), rounded up to 8-byte alignment = 24. -/
def HDR : Nat := 24

/-- `INT_MAX`, the initial value of the best-fit scan's `int smallest`. -/
def INT_MAX : Nat := 2 ^ 31 - 1

/-- One tracked heap block: header address, payload size in bytes
(`size`), and the `free` flag.  The C `next` field is represented by
list adjacency. -/
structure Block where
  addr : Nat
  size : Nat
  free : Bool
deriving DecidableEq, Repr

/-- The four build-time placement strategies of `findFreeBlock`. -/
inductive Strategy where
  | firstFit
  | bestFit
  | worstFit
  | nextFit
deriving DecidableEq, Repr

/-- Result of a C computation that can die on a failed `assert`. -/
inductive CResult (α : Type) where
  | abort : CResult α
  | ok : α → CResult α

/-- The process-wide state of the allocator: the tracked block list, the
next-fit cursor `actualLast` (stored as the header address of the block it
points to, `none` for `NULL`), the program break, payload memory, the
`atexit` registration flag and the statistics counters. -/
structure AllocState where
  heapList : List Block
  actualLast : Option Nat
  brk : Nat
  mem : Nat → Nat
  atexit_registered : Bool
  num_mallocs : Nat
  num_frees : Nat
  num_reuses : Nat
  num_grows : Nat
  num_splits : Nat
  num_coalesces : Nat
  num_blocks : Nat
  num_requested : Nat
  max_heap : Nat

/-- The state at process start: empty heap, `NULL` cursor, zero counters.
The initial program break is an arbitrary concrete page-aligned address. -/
def initState : AllocState where
  heapList := []
  actualLast := none
  brk := 65536
  mem := fun _ => 0
  atexit_registered := false
  num_mallocs := 0
  num_frees := 0
  num_reuses := 0
  num_grows := 0
  num_splits := 0
  num_coalesces := 0
  num_blocks := 0
  num_requested := 0
  max_heap := 0

/-- `ALIGN4(s) = ((((s) - 1) >> 2) << 2) + 4` evaluated in `size_t`
arithmetic (wrapping at `2 ^ 64`); `s - 1` wraps for `s = 0`. -/
def ALIGN4 (s : Nat) : Nat :=
  (((((s + U64 - 1) % U64) >>> 2) <<< 2) + 4) % U64

/-- The scan predicate `curr->free && curr->size >= size`. -/
def qualifies (b : Block) (size : Nat) : Bool :=
  b.free && decide (size ≤ b.size)

/-- `malloc` initialises its `last` variable to `heapList`, i.e. to the
head block when the heap is nonempty and to `NULL` otherwise. -/
def initLast (heap : List Block) : Option Nat :=
  if heap.isEmpty then none else some 0

/-- Conversion of a `size_t` value to `int` (wrap into
`[-2 ^ 31, 2 ^ 31)`), as in `smallest = curr->size`. -/
def intOfSize (s : Nat) : Int :=
  if s % 2 ^ 32 < 2 ^ 31 then ((s % 2 ^ 32 : Nat) : Int)
  else ((s % 2 ^ 32 : Nat) : Int) - 2 ^ 32

/-- Conversion of an `int` value to `size_t` (reduce mod `2 ^ 64`), the
usual-arithmetic-conversion applied in `curr->size < smallest`. -/
def sizeTOfInt (i : Int) : Nat :=
  (i % (2 ^ 64 : Int)).toNat

/-- The `FIT == 0` (first fit) scan loop: walk the list until a block
satisfies the predicate, recording each non-matching block in `last`.
Returns (matched index, final `last`); `i` is the index of the head of
the remaining list. -/
def findFirstAux (size : Nat) : List Block → Nat → Option Nat → Option Nat × Option Nat
  | [], _, last => (none, last)
  | b :: rest, i, last =>
    if qualifies b size then (some i, last)
    else findFirstAux size rest (i + 1) (some i)

/-- The `BEST == 0` scan loop: full walk tracking `int smallest`
(initially `INT_MAX`) and the best index, with the C `int`/`size_t`
conversions explicit. -/
def findBestAux (size : Nat) :
    List Block → Nat → Int → Option Nat → Option Nat → Option Nat × Option Nat
  | [], _, _, best, last => (best, last)
  | b :: rest, i, smallest, best, _last =>
    if qualifies b size && decide (b.size < sizeTOfInt smallest) then
      findBestAux size rest (i + 1) (intOfSize b.size) (some i) (some i)
    else
      findBestAux size rest (i + 1) smallest best (some i)

/-- The `WORST == 0` scan loop: full walk tracking `int largest`
(initially `0`) and the worst index. -/
def findWorstAux (size : Nat) :
    List Block → Nat → Int → Option Nat → Option Nat → Option Nat × Option Nat
  | [], _, _, worst, last => (worst, last)
  | b :: rest, i, largest, worst, _last =>
    if qualifies b size && decide (sizeTOfInt largest < b.size) then
      findWorstAux size rest (i + 1) (intOfSize b.size) (some i) (some i)
    else
      findWorstAux size rest (i + 1) largest worst (some i)

/-- The first loop of the `NEXT == 0` branch: like the first-fit loop but
it also stores each visited block into the cursor `actualLast`. -/
def findNextAux (size : Nat) :
    List Block → Nat → Option Nat → Option Nat → Option Nat × Option Nat × Option Nat
  | [], _, last, cur => (none, last, cur)
  | b :: rest, i, last, cur =>
    if qualifies b size then (some i, last, cur)
    else findNextAux size rest (i + 1) (some i) (some b.addr)

/-- The `NEXT == 0` branch: resume from the block `actualLast` points to,
then wrap around to a scan from the head (which does not touch the
cursor).  `actualLast` is `NULL` at process start and is only ever
assigned inside the first loop, which does not run when the cursor is
`NULL` — so in every reachable state the cursor is still `NULL` and the
branch degenerates to the first-fit scan (proved below).  A cursor
address not matching any tracked block would be a dangling pointer
(undefined behaviour in C); the model then also falls back to the
wrap-around scan. -/
def findNext (heap : List Block) (cursor : Option Nat) (size : Nat) :
    Option Nat × Option Nat × Option Nat :=
  match cursor with
  | none =>
    ((findFirstAux size heap 0 (initLast heap)).1,
     (findFirstAux size heap 0 (initLast heap)).2, none)
  | some a =>
    match heap.findIdx? (fun b => b.addr == a) with
    | none =>
      ((findFirstAux size heap 0 (initLast heap)).1,
       (findFirstAux size heap 0 (initLast heap)).2, some a)
    | some i0 =>
      match findNextAux size (heap.drop i0) i0 (initLast heap) (some a) with
      | (some j, l, cur) => (some j, l, cur)
      | (none, l, cur) =>
        ((findFirstAux size heap 0 l).1, (findFirstAux size heap 0 l).2, cur)

/-- `findFreeBlock(&last, size)` with `last` initialised to `heapList`
(as at its single call site in `malloc`).  Returns the found block's
index, the final value of `last`, and the new value of the global
next-fit cursor `actualLast`. -/
def findFreeBlock (strat : Strategy) (heap : List Block) (cursor : Option Nat)
    (size : Nat) : Option Nat × Option Nat × Option Nat :=
  match strat with
  | .firstFit =>
    ((findFirstAux size heap 0 (initLast heap)).1,
     (findFirstAux size heap 0 (initLast heap)).2, cursor)
  | .bestFit =>
    ((findBestAux size heap 0 ((INT_MAX : Nat) : Int) none (initLast heap)).1,
     (findBestAux size heap 0 ((INT_MAX : Nat) : Int) none (initLast heap)).2, cursor)
  | .worstFit =>
    ((findWorstAux size heap 0 0 none (initLast heap)).1,
     (findWorstAux size heap 0 0 none (initLast heap)).2, cursor)
  | .nextFit => findNext heap cursor size

/-- `last->next = curr` followed by `curr->next = NULL`: keep the list up
to index `i` and continue with the new block (nothing after `last`
remains reachable).  An out-of-range `i` would be a dangling `last`
pointer; the list is then left unchanged (unreachable for the actual
call site). -/
def linkAfter : List Block → Nat → Block → List Block
  | [], _, _ => []
  | b :: _, 0, nb => [b, nb]
  | b :: r, i + 1, nb => b :: linkAfter r i nb

/-- The list-linking effect of a successful `growHeap`: set the head if
the heap was empty (`if (!heapList) heapList = curr`), and link the new
block after `last` (`if (last) last->next = curr`, with
`curr->next = NULL`). -/
def grownList (heap : List Block) (last : Option Nat) (nb : Block) : List Block :=
  match last with
  | none => if heap.isEmpty then [nb] else heap
  | some i => linkAfter (if heap.isEmpty then [nb] else heap) i nb

/-- `growHeap(last, size)`.  `curr = sbrk(0)` is the current break;
`prev = sbrk(sizeof(struct _block) + size)` is the old break on success
and `(void *)-1` on denial.  Note the order of the checks: the
`assert(curr == prev)` runs *before* the `curr == (void *)-1` test, and
`curr` (the result of `sbrk(0)`) is never the sentinel, so an OS denial
fails the assertion and aborts instead of reaching the `NULL` return. -/
def growHeap (osGrant : Bool) (st : AllocState) (last : Option Nat) (size : Nat) :
    CResult (Option Block × AllocState) :=
  let curr : Nat := st.brk
  let prev : Nat := if osGrant then st.brk else U64 - 1
  if curr ≠ prev then .abort
  else if curr = U64 - 1 then .ok (none, st)
  else
    let nb : Block := ⟨curr, size, false⟩
    .ok (some nb,
      { st with
        heapList := grownList st.heapList last nb
        brk := st.brk + HDR + size
        max_heap := st.max_heap + size
        num_grows := st.num_grows + 1
        num_blocks := st.num_blocks + 1 })

/-- The split step of `malloc`: replace the block at index `j` (of size
`bsize`) by the shrunk block of size `asize` followed by the carved-off
free block at address `addr + HDR + asize` of size `bsize - asize - HDR`,
which inherits the original `next` link. -/
def splitBlock (asize : Nat) : List Block → Nat → List Block
  | [], _ => []
  | b :: r, 0 =>
    ⟨b.addr, asize, b.free⟩ :: ⟨b.addr + HDR + asize, b.size - asize - HDR, true⟩ :: r
  | b :: r, j + 1 => b :: splitBlock asize r j

/-- `next->free = false`: clear the free flag of the block at index `j`. -/
def markAlloc : List Block → Nat → List Block
  | [], _ => []
  | b :: r, 0 => ⟨b.addr, b.size, false⟩ :: r
  | b :: r, j + 1 => b :: markAlloc r j

/-- The `atexit(printStatistics)` registration every `malloc` call
performs first: set the `atexit_registered` flag if it was clear. -/
def regAtexit (st : AllocState) : AllocState :=
  if st.atexit_registered then st else { st with atexit_registered := true }

/-- `malloc(size)`.  Registers the `atexit` hook on the first call,
rounds the request with `ALIGN4` and rejects a zero result, scans for a
free block, splits an oversized match, grows the heap when the scan found
nothing, marks the chosen block allocated and returns its payload
address.  `osGrant` says whether the (at most one) `sbrk` request of this
call would be granted by the OS. -/
def malloc (strat : Strategy) (osGrant : Bool) (st : AllocState) (size0 : Nat) :
    CResult (Option Nat × AllocState) :=
  let st1 := regAtexit st
  let size := ALIGN4 size0
  if size = 0 then .ok (none, st1)
  else
    let r := findFreeBlock strat st1.heapList st1.actualLast size
    let st2 := { st1 with actualLast := r.2.2 }
    match r.1 with
    | some j =>
      let b := (st2.heapList.get? j).getD ⟨0, 0, false⟩
      let heap1 :=
        if size + HDR < b.size then splitBlock size st2.heapList j else st2.heapList
      let splits1 :=
        if size + HDR < b.size then st2.num_splits + 1 else st2.num_splits
      .ok (some (b.addr + HDR),
        { st2 with
          heapList := markAlloc heap1 j
          num_splits := splits1
          num_reuses := st2.num_reuses + 1
          num_requested := st2.num_requested + size
          num_mallocs := st2.num_mallocs + 1 })
    | none =>
      match growHeap osGrant st2 r.2.1 size with
      | .abort => .abort
      | .ok (none, st3) => .ok (none, st3)
      | .ok (some nb, st3) =>
        .ok (some (nb.addr + HDR),
          { st3 with
            num_requested := st3.num_requested + size
            num_mallocs := st3.num_mallocs + 1 })

/-- `BLOCK_HEADER(ptr)` resolution: the tracked block whose payload
starts at address `p` (i.e. whose header address is `p - HDR`). -/
def lookupBlock : List Block → Nat → Option Block
  | [], _ => none
  | b :: r, p => if b.addr + HDR = p then some b else lookupBlock r p

/-- Mark the block with payload address `p` free; `none` when the block
is already free (the failed `assert(!curr->free)`) or when no tracked
block has that payload address (a pointer the allocator never issued —
undefined behaviour in C, modelled as the same abort). -/
def markFreePtr : List Block → Nat → Option (List Block)
  | [], _ => none
  | b :: r, p =>
    if b.addr + HDR = p then
      if b.free then none else some (⟨b.addr, b.size, true⟩ :: r)
    else (markFreePtr r p).map (b :: ·)

/-- The coalescing pass of `free`: one walk from the head; whenever the
current block and its successor are both free, the successor is absorbed
(`temp->size += temp->next->size + sizeof(struct _block)`) and the walk
*advances past the merge* (`temp = temp->next`), so a freshly merged
block is not re-examined against its new successor.  Returns the new
list and the number of merges (`num_coalesces` increments). -/
def coalescePass : List Block → List Block × Nat
  | [] => ([], 0)
  | [b] => ([b], 0)
  | b :: c :: r2 =>
    if b.free && c.free then
      let t := coalescePass r2
      (⟨b.addr, b.size + c.size + HDR, b.free⟩ :: t.1, t.2 + 1)
    else
      let t := coalescePass (c :: r2)
      (b :: t.1, t.2)

/-- `free(ptr)`: `NULL` is a no-op; otherwise resolve the header, assert
it is not already free, mark it free and run one coalescing pass. -/
def free (st : AllocState) (ptr : Nat) : CResult AllocState :=
  if ptr = 0 then .ok st
  else
    match markFreePtr st.heapList ptr with
    | none => .abort
    | some heap1 =>
      let t := coalescePass heap1
      .ok { st with
        heapList := t.1
        num_coalesces := st.num_coalesces + t.2
        num_frees := st.num_frees + 1 }

/-- `memset(dst, v, n)` on the byte map. -/
def memSet (m : Nat → Nat) (dst v n : Nat) : Nat → Nat :=
  fun a => if dst ≤ a ∧ a < dst + n then v else m a

/-- `memcpy(dst, src, n)` on the byte map (the two regions never overlap
at the call site: the source block is allocated, the destination is a
distinct block `malloc` just produced). -/
def memCopy (m : Nat → Nat) (src dst n : Nat) : Nat → Nat :=
  fun a => if dst ≤ a ∧ a < dst + n then m (src + (a - dst)) else m a

/-- The tail of `calloc` after the inner `malloc` returns: pass a
`NULL` result through unchanged, else `memset(ptr, 0, total)`. -/
def callocCore (total : Nat) (r : CResult (Option Nat × AllocState)) :
    CResult (Option Nat × AllocState) :=
  match r with
  | .abort => .abort
  | .ok (none, st') => .ok (none, st')
  | .ok (some p, st') => .ok (some p, { st' with mem := memSet st'.mem p 0 total })

/-- `calloc(nmemb, size)`: multiply with `size_t` wraparound and no
overflow check, delegate to `malloc`, zero-fill the requested bytes on
success. -/
def calloc (strat : Strategy) (osGrant : Bool) (st : AllocState) (nmemb size : Nat) :
    CResult (Option Nat × AllocState) :=
  callocCore (nmemb * size % U64) (malloc strat osGrant st (nmemb * size % U64))

/-- The zero-size branch of `realloc`: `free(ptr)` then return `NULL`
(an aborting `free` kills the process before the return). -/
def freeRet (r : CResult AllocState) : CResult (Option Nat × AllocState) :=
  match r with
  | .abort => .abort
  | .ok st' => .ok (none, st')

/-- The tail of `realloc` after the inner `malloc` returns: on failure
return `NULL` without freeing the old block; on success resolve the old
block's header, copy `min(oldBlock->size, size)` bytes into the new
payload, and free the old pointer. -/
def reallocCore (ptr size : Nat) (r : CResult (Option Nat × AllocState)) :
    CResult (Option Nat × AllocState) :=
  match r with
  | .abort => .abort
  | .ok (none, st1) => .ok (none, st1)
  | .ok (some p', st1) =>
    match lookupBlock st1.heapList ptr with
    | none => .abort
    | some oldBlock =>
      let n := min oldBlock.size size
      let st2 := { st1 with mem := memCopy st1.mem ptr p' n }
      match free st2 ptr with
      | .abort => .abort
      | .ok st3 => .ok (some p', st3)

/-- `realloc(ptr, size)`: `NULL` pointer acts as `malloc`; zero size
frees and returns `NULL`; otherwise allocate, copy
`min(oldBlock->size, size)` bytes, free the old block.  When the inner
`malloc` fails the old block is left untouched. -/
def realloc (strat : Strategy) (osGrant : Bool) (st : AllocState) (ptr size : Nat) :
    CResult (Option Nat × AllocState) :=
  if ptr = 0 then malloc strat osGrant st size
  else if size = 0 then freeRet (free st ptr)
  else reallocCore ptr size (malloc strat osGrant st size)

/-- `true` when the computation did not die on an assertion. -/
def CResult.isOk {α : Type} : CResult α → Bool
  | .abort => false
  | .ok _ => true

/-- The state component of a `malloc`-shaped result (`none` on abort). -/
def stOf : CResult (Option Nat × AllocState) → Option AllocState
  | .abort => none
  | .ok (_, s) => some s

/-- The returned pointer of a `malloc`-shaped result (`none` on abort). -/
def ptrOf : CResult (Option Nat × AllocState) → Option (Option Nat)
  | .abort => none
  | .ok (p, _) => some p

/-- The state component of a `free` result (`none` on abort). -/
def stOfF : CResult AllocState → Option AllocState
  | .abort => none
  | .ok s => some s

/-- `malloc` as a state transformer, dropping the returned pointer. -/
def mallocSt (strat : Strategy) (osGrant : Bool) (size : Nat) (st : AllocState) :
    Option AllocState :=
  stOf (malloc strat osGrant st size)

/-- `free` as a state transformer. -/
def freeSt (ptr : Nat) (st : AllocState) : Option AllocState :=
  stOfF (free st ptr)

/-- A concrete first-fit run from process start: allocate three 8-byte
blocks (at payload addresses 65560, 65592, 65624), then free the first,
the third, and finally the middle one. -/
def tripleFreeRun : Option AllocState :=
  ((((mallocSt .firstFit true 8 initState).bind
      (mallocSt .firstFit true 8)).bind
      (mallocSt .firstFit true 8)).bind
      (freeSt 65560)).bind
      (freeSt 65624) |>.bind (freeSt 65592)

/-- No two adjacent blocks of the list are simultaneously free. -/
def noAdjacentFree : List Block → Bool
  | b :: c :: r => !(b.free && c.free) && noAdjacentFree (c :: r)
  | _ => true

/-- Each block is immediately followed by the next: no gaps other than
one header plus payload per block (spec §3's address-order invariant). -/
def contiguousB : List Block → Bool
  | a :: b :: r => (b.addr == a.addr + HDR + a.size) && contiguousB (b :: r)
  | _ => true

/-- The address one past the last tracked block, if any. -/
def endB : List Block → Option Nat
  | [] => none
  | [b] => some (b.addr + HDR + b.size)
  | _ :: r => endB r

/-- The header address of the first block, if any. -/
def headAddr (l : List Block) : Option Nat :=
  l.head?.map (fun b => b.addr)

/-- The tracked heap ends exactly at the program break. -/
def endsAt (l : List Block) (brk : Nat) : Bool :=
  match endB l with
  | none => true
  | some e => e == brk

/-- Header addresses are strictly increasing along the list. -/
def addrOrderedB : List Block → Bool
  | a :: b :: r => decide (a.addr < b.addr) && addrOrderedB (b :: r)
  | _ => true

/-- The reachable-state invariant: the block list is contiguous (hence
address-ordered), it ends at the program break, and the next-fit cursor
is still `NULL`. -/
def InvB (st : AllocState) : Bool :=
  contiguousB st.heapList && endsAt st.heapList st.brk && (st.actualLast == none)

/-- Mathematical best-fit choice among blocks of `l` that qualify and
have size strictly below `s`: the offset of the first block attaining
the least such size. Characterises the `BEST == 0` scan when all sizes
are exactly representable in `int`. -/
def bestPure (size : Nat) : List Block → Nat → Option Nat
  | [], _ => none
  | b :: r, s =>
    if qualifies b size && decide (b.size < s) then
      match bestPure size r b.size with
      | none => some 0
      | some k => some (k + 1)
    else (bestPure size r s).map (· + 1)

/-- Mathematical worst-fit choice: the offset of the first qualifying
block whose size strictly exceeds `s` and is maximal. -/
def worstPure (size : Nat) : List Block → Nat → Option Nat
  | [], _ => none
  | b :: r, s =>
    if qualifies b size && decide (s < b.size) then
      match worstPure size r b.size with
      | none => some 0
      | some k => some (k + 1)
    else (worstPure size r s).map (· + 1)

/-- A state with one already-free 8-byte block (header at 100). -/
def stC8w : AllocState :=
  { initState with heapList := [⟨100, 8, true⟩], brk := 132 }

/-- A state with one free 64-byte block (header at 100). -/
def stC4w : AllocState :=
  { initState with heapList := [⟨100, 64, true⟩], brk := 188 }

/-- A two-block heap used to exercise the placement strategies. -/
def heapC3w : List Block := [⟨100, 8, true⟩, ⟨132, 16, true⟩]

/-- A state with a single allocated 8-byte block (payload at 65560). -/
def stC6w : AllocState :=
  { initState with heapList := [⟨65536, 8, false⟩], brk := 65568 }

/-- The state `malloc(16)` produces from `stC6w`: the heap grew by one
16-byte block (payload at 65592). -/
def stC6w1 : AllocState where
  heapList := [⟨65536, 8, false⟩, ⟨65568, 16, false⟩]
  actualLast := none
  brk := 65608
  mem := fun _ => 0
  atexit_registered := true
  num_mallocs := 1
  num_frees := 0
  num_reuses := 0
  num_grows := 1
  num_splits := 0
  num_coalesces := 0
  num_blocks := 1
  num_requested := 16
  max_heap := 16

/-- The state after `calloc(2, 4)` from process start: one grown 8-byte
block whose payload (at 65560) has been zero-filled. -/
def stC7w : AllocState where
  heapList := [⟨65536, 8, false⟩]
  actualLast := none
  brk := 65568
  mem := memSet (fun _ => 0) 65560 0 8
  atexit_registered := true
  num_mallocs := 1
  num_frees := 0
  num_reuses := 0
  num_grows := 1
  num_splits := 0
  num_coalesces := 0
  num_blocks := 1
  num_requested := 8
  max_heap := 8

/-- The state after `malloc(8)` (first fit, OS granting) from process
start: one grown 8-byte block. -/
def stC9w : AllocState where
  heapList := [⟨65536, 8, false⟩]
  actualLast := none
  brk := 65568
  mem := fun _ => 0
  atexit_registered := true
  num_mallocs := 1
  num_frees := 0
  num_reuses := 0
  num_grows := 1
  num_splits := 0
  num_coalesces := 0
  num_blocks := 1
  num_requested := 8
  max_heap := 8

/-- The state after `malloc(6)` from process start: the 6-byte request
was rounded to 8 bytes before being recorded. -/
def stC10w : AllocState where
  heapList := [⟨65536, 8, false⟩]
  actualLast := none
  brk := 65568
  mem := fun _ => 0
  atexit_registered := true
  num_mallocs := 1
  num_frees := 0
  num_reuses := 0
  num_grows := 1
  num_splits := 0
  num_coalesces := 0
  num_blocks := 1
  num_requested := 8
  max_heap := 8

/-! ### C1: OS denial of heap growth -/

/-- C1 (code bug, failing input): with an empty heap (so the scan finds
no usable block) and the OS denying the 8-byte growth request, `malloc`
does not surface `NULL` — it dies on `growHeap`'s
`assert(curr == prev)`, since `curr` is the old break while the failed
`sbrk` returned `(void *)-1`; the later `curr == (void *)-1` null-return
test can never fire. -/
theorem c1_os_denial_aborts_not_null :
    (findFreeBlock .firstFit initState.heapList initState.actualLast (ALIGN4 8)).1 = none ∧
    malloc .firstFit false initState 8 = .abort :=
  ⟨rfl, rfl⟩

/-! ### C2: exhaustive coalescing -/

/-- C2 (code bug, failing input): allocate three adjacent 8-byte blocks,
free the first, the third, then the middle one.  The coalescing pass of
the last `free` merges blocks one and two but then advances past the
merged block, so it ends with two adjacent free blocks — coalescing is
not exhaustive within the call. -/
theorem c2_adjacent_free_blocks_persist :
    tripleFreeRun.map (fun st => st.heapList) =
      some [⟨65536, 40, true⟩, ⟨65600, 8, true⟩] ∧
    tripleFreeRun.map (fun st => noAdjacentFree st.heapList) = some false :=
  ⟨rfl, rfl⟩

/-! ### C5: rounding and the zero-sized request -/

/-- For requests below the `size_t` wraparound zone, `ALIGN4` rounds up
to the next multiple of four. -/
theorem ALIGN4_bounds (s : Nat) (hs : s < U64 - 3) :
    4 ∣ ALIGN4 s ∧ s ≤ ALIGN4 s ∧ ALIGN4 s < s + 4 := by
  have hs' : s < 2 ^ 64 - 3 := hs
  rcases Nat.eq_zero_or_pos s with h0 | h1
  · subst h0
    refine ⟨by decide, by decide, by decide⟩
  · have hm : (s + U64 - 1) % U64 = s - 1 := by
      unfold U64; omega
    unfold ALIGN4
    rw [hm, Nat.shiftRight_eq_div_pow, Nat.shiftLeft_eq]
    have h22 : (2 : Nat) ^ 2 = 4 := by norm_num
    rw [h22]
    have hd := Nat.div_add_mod (s - 1) 4
    have hm4 : (s - 1) % 4 < 4 := Nat.mod_lt _ (by norm_num)
    have hlt : (s - 1) / 4 * 4 + 4 < U64 := by unfold U64; omega
    rw [Nat.mod_eq_of_lt hlt]
    unfold U64 at hlt
    refine ⟨⟨(s - 1) / 4 + 1, by omega⟩, by omega, by omega⟩

/-- C5 counterexample: the first-ever `malloc(0)` changes shared state —
it flips the `atexit` registration flag — so the zero-sized request is
not entirely free of shared-state changes. -/
theorem c5_zero_request_counterexample :
    initState.atexit_registered = false ∧
    (stOf (malloc .firstFit true initState 0)).map
      (fun st => st.atexit_registered) = some true :=
  ⟨rfl, rfl⟩

/-- C5 (amended): `malloc` rounds the request up to the next multiple of
4 and rejects a request that rounds to zero by returning `NULL`; the
heap list and every statistics counter are left unchanged, the sole
state change being that the call (like every `malloc` call) leaves the
exit-hook flag registered. -/
theorem c5_zero_request_amended (strat : Strategy) (os : Bool) (st : AllocState) (s : Nat) :
    (s < U64 - 3 → 4 ∣ ALIGN4 s ∧ s ≤ ALIGN4 s ∧ ALIGN4 s < s + 4) ∧
    (ALIGN4 s = 0 →
      malloc strat os st s = .ok (none, { st with atexit_registered := true })) := by
  refine ⟨fun hs => ALIGN4_bounds s hs, fun h0 => ?_⟩
  by_cases ha : st.atexit_registered
  · have h1 : ({ st with atexit_registered := true } : AllocState) = st := by
      cases st
      simp_all
    rw [h1]
    unfold malloc regAtexit
    simp [h0, ha]
  · unfold malloc regAtexit
    simp [h0, ha]

/-- C5 witness: the amended statement at the concrete request 0. -/
theorem c5_zero_request_amended_witness :
    ALIGN4 0 = 0 ∧
    malloc .firstFit true initState 0 =
      .ok (none, { initState with atexit_registered := true }) :=
  ⟨by decide, (c5_zero_request_amended .firstFit true initState 0).2 (by decide)⟩

/-! ### Projection lemmas for the `atexit` registration step -/

@[simp] theorem regAtexit_heapList (st : AllocState) :
    (regAtexit st).heapList = st.heapList := by
  unfold regAtexit; split <;> rfl

@[simp] theorem regAtexit_actualLast (st : AllocState) :
    (regAtexit st).actualLast = st.actualLast := by
  unfold regAtexit; split <;> rfl

@[simp] theorem regAtexit_brk (st : AllocState) :
    (regAtexit st).brk = st.brk := by
  unfold regAtexit; split <;> rfl

@[simp] theorem regAtexit_mem (st : AllocState) :
    (regAtexit st).mem = st.mem := by
  unfold regAtexit; split <;> rfl

@[simp] theorem regAtexit_num_mallocs (st : AllocState) :
    (regAtexit st).num_mallocs = st.num_mallocs := by
  unfold regAtexit; split <;> rfl

@[simp] theorem regAtexit_num_frees (st : AllocState) :
    (regAtexit st).num_frees = st.num_frees := by
  unfold regAtexit; split <;> rfl

@[simp] theorem regAtexit_num_reuses (st : AllocState) :
    (regAtexit st).num_reuses = st.num_reuses := by
  unfold regAtexit; split <;> rfl

@[simp] theorem regAtexit_num_grows (st : AllocState) :
    (regAtexit st).num_grows = st.num_grows := by
  unfold regAtexit; split <;> rfl

@[simp] theorem regAtexit_num_splits (st : AllocState) :
    (regAtexit st).num_splits = st.num_splits := by
  unfold regAtexit; split <;> rfl

@[simp] theorem regAtexit_num_coalesces (st : AllocState) :
    (regAtexit st).num_coalesces = st.num_coalesces := by
  unfold regAtexit; split <;> rfl

@[simp] theorem regAtexit_num_blocks (st : AllocState) :
    (regAtexit st).num_blocks = st.num_blocks := by
  unfold regAtexit; split <;> rfl

@[simp] theorem regAtexit_num_requested (st : AllocState) :
    (regAtexit st).num_requested = st.num_requested := by
  unfold regAtexit; split <;> rfl

@[simp] theorem regAtexit_max_heap (st : AllocState) :
    (regAtexit st).max_heap = st.max_heap := by
  unfold regAtexit; split <;> rfl

/-! ### Lemmas about `markFreePtr` -/

/-- Resolving an already-free block makes the deallocation assert. -/
theorem markFreePtr_none_of_free (l : List Block) (p : Nat) (b : Block)
    (hl : lookupBlock l p = some b) (hf : b.free = true) :
    markFreePtr l p = none := by
  induction l with
  | nil => simp [lookupBlock] at hl
  | cons x r ih =>
    by_cases hx : x.addr + HDR = p
    · simp only [lookupBlock, if_pos hx, Option.some.injEq] at hl
      subst hl
      simp [markFreePtr, hx, hf]
    · simp only [lookupBlock, if_neg hx] at hl
      simp [markFreePtr, hx, ih hl]

/-- Resolving an allocated block never asserts. -/
theorem markFreePtr_isSome_of_alloc (l : List Block) (p : Nat) (b : Block)
    (hl : lookupBlock l p = some b) (hf : b.free = false) :
    (markFreePtr l p).isSome = true := by
  induction l with
  | nil => simp [lookupBlock] at hl
  | cons x r ih =>
    by_cases hx : x.addr + HDR = p
    · simp only [lookupBlock, if_pos hx, Option.some.injEq] at hl
      subst hl
      simp [markFreePtr, hx, hf]
    · simp only [lookupBlock, if_neg hx] at hl
      simp [markFreePtr, hx, ih hl]

/-! ### C8: free(NULL), double free, valid free -/

/-- C8 (confirmed): `free(NULL)` is a no-op; freeing a payload pointer
whose block is already marked free dies on `assert(!curr->free)`; and
freeing a pointer whose block is currently allocated never triggers that
assertion. -/
theorem c8_free_null_and_double_free (st : AllocState) (p : Nat) (b : Block)
    (hp : p ≠ 0) (hl : lookupBlock st.heapList p = some b) :
    free st 0 = .ok st ∧
    (b.free = true → free st p = .abort) ∧
    (b.free = false → (free st p).isOk = true) := by
  refine ⟨by simp [free], fun hf => ?_, fun hf => ?_⟩
  · unfold free
    rw [if_neg hp, markFreePtr_none_of_free st.heapList p b hl hf]
  · unfold free
    rw [if_neg hp]
    obtain ⟨l', hl'⟩ :=
      Option.isSome_iff_exists.mp (markFreePtr_isSome_of_alloc st.heapList p b hl hf)
    rw [hl']
    rfl

/-- C8 witness: a heap with one free block at header address 100. -/
theorem c8_free_null_and_double_free_witness :
    ((124 : Nat) ≠ 0 ∧ lookupBlock stC8w.heapList 124 = some ⟨100, 8, true⟩) ∧
    (free stC8w 0 = .ok stC8w ∧
      ((⟨100, 8, true⟩ : Block).free = true → free stC8w 124 = .abort) ∧
      ((⟨100, 8, true⟩ : Block).free = false → (free stC8w 124).isOk = true)) :=
  ⟨⟨by decide, by decide⟩,
    c8_free_null_and_double_free stC8w 124 ⟨100, 8, true⟩ (by decide) (by decide)⟩

/-! ### Lemmas about `growHeap` -/

/-- The dead `NULL` return of `growHeap` leaves the state untouched. -/
theorem growHeap_ok_none (os : Bool) (st : AllocState) (last : Option Nat) (size : Nat)
    (st3 : AllocState) (h : growHeap os st last size = .ok (none, st3)) : st3 = st := by
  simp only [growHeap] at h
  split_ifs at h
  all_goals first
    | exact CResult.noConfusion h
    | exact (congrArg Prod.snd (CResult.ok.inj h)).symm
    | exact Option.noConfusion (congrArg Prod.fst (CResult.ok.inj h))

/-- A successful growth: the new block sits at the old break, the break
advances by header plus payload, and no other statistics-relevant field
changes except the growth counters. -/
theorem growHeap_ok_some (os : Bool) (st : AllocState) (last : Option Nat) (size : Nat)
    (nb : Block) (st3 : AllocState)
    (h : growHeap os st last size = .ok (some nb, st3)) :
    nb = ⟨st.brk, size, false⟩ ∧
    st3.heapList = grownList st.heapList last nb ∧
    st3.brk = st.brk + HDR + size ∧
    st3.actualLast = st.actualLast ∧ st3.mem = st.mem ∧
    st3.atexit_registered = st.atexit_registered ∧
    st3.num_mallocs = st.num_mallocs ∧ st3.num_frees = st.num_frees ∧
    st3.num_reuses = st.num_reuses ∧ st3.num_splits = st.num_splits ∧
    st3.num_coalesces = st.num_coalesces ∧ st3.num_requested = st.num_requested := by
  simp only [growHeap] at h
  split_ifs at h
  all_goals try exact Option.noConfusion (congrArg Prod.fst (CResult.ok.inj h))
  all_goals
    have h1 := CResult.ok.inj h
  all_goals
    have hnb : nb = ⟨st.brk, size, false⟩ :=
      (Option.some.inj (congrArg Prod.fst h1)).symm
  all_goals
    have hst : st3 = _ := (congrArg Prod.snd h1).symm
  all_goals subst hnb
  all_goals subst hst
  all_goals exact ⟨rfl, rfl, rfl, rfl, rfl, rfl, rfl, rfl, rfl, rfl, rfl, rfl⟩

/-! ### C10: statistics counters of malloc -/

/-- C10 (confirmed): a successful `malloc` adds the *aligned* size to
`num_requested` (not the caller's original byte count) and increments
`num_mallocs` by exactly one; a `malloc` call that returns `NULL` leaves
every statistics counter unchanged. -/
theorem c10_malloc_counters (strat : Strategy) (os : Bool) (st : AllocState) (s : Nat) :
    (∀ p st', malloc strat os st s = .ok (some p, st') →
      st'.num_requested = st.num_requested + ALIGN4 s ∧
      st'.num_mallocs = st.num_mallocs + 1) ∧
    (∀ st', malloc strat os st s = .ok (none, st') →
      st'.num_mallocs = st.num_mallocs ∧ st'.num_frees = st.num_frees ∧
      st'.num_reuses = st.num_reuses ∧ st'.num_grows = st.num_grows ∧
      st'.num_splits = st.num_splits ∧ st'.num_coalesces = st.num_coalesces ∧
      st'.num_blocks = st.num_blocks ∧ st'.num_requested = st.num_requested ∧
      st'.max_heap = st.max_heap) := by
  constructor
  · intro p st' h
    simp only [malloc] at h
    split at h
    · exact Option.noConfusion (congrArg Prod.fst (CResult.ok.inj h))
    · split at h
      · have hst : st' = _ := (congrArg Prod.snd (CResult.ok.inj h)).symm
        subst hst
        simp
      · split at h
        · exact CResult.noConfusion h
        · exact Option.noConfusion (congrArg Prod.fst (CResult.ok.inj h))
        · rename_i nb st3 hg0
          obtain ⟨hnb, hheap, hbrk, hal, hmem, hax, hm, hf, hr, hsp, hc, hreq⟩ :=
            growHeap_ok_some _ _ _ _ _ _ hg0
          have hst : st' = _ := (congrArg Prod.snd (CResult.ok.inj h)).symm
          subst hst
          simp [hreq, hm]
  · intro st' h
    simp only [malloc] at h
    split at h
    · have hst : st' = _ := (congrArg Prod.snd (CResult.ok.inj h)).symm
      subst hst
      simp
    · split at h
      · exact Option.noConfusion (congrArg Prod.fst (CResult.ok.inj h))
      · split at h
        · exact CResult.noConfusion h
        · rename_i st3 hg0
          have h3 := growHeap_ok_none _ _ _ _ _ hg0
          have hst : st' = st3 := (congrArg Prod.snd (CResult.ok.inj h)).symm
          subst hst
          subst h3
          simp
        · exact Option.noConfusion (congrArg Prod.fst (CResult.ok.inj h))

/-- C10 witness: `malloc(6)` from process start records 8 requested
bytes (the aligned size, not 6) and one `malloc`. -/
theorem c10_malloc_counters_witness :
    malloc .firstFit true initState 6 = .ok (some 65560, stC10w) ∧
    stC10w.num_requested = initState.num_requested + ALIGN4 6 ∧
    stC10w.num_mallocs = initState.num_mallocs + 1 :=
  ⟨rfl,
   ((c10_malloc_counters .firstFit true initState 6).1 65560 stC10w rfl).1,
   ((c10_malloc_counters .firstFit true initState 6).1 65560 stC10w rfl).2⟩

/-- `malloc` never writes payload bytes and never touches `num_frees`. -/
theorem malloc_mem_frees (strat : Strategy) (os : Bool) (st : AllocState) (s : Nat)
    (r : Option Nat) (st' : AllocState) (h : malloc strat os st s = .ok (r, st')) :
    st'.mem = st.mem ∧ st'.num_frees = st.num_frees := by
  simp only [malloc] at h
  split at h
  · have hst : st' = _ := (congrArg Prod.snd (CResult.ok.inj h)).symm
    subst hst
    simp
  · split at h
    · have hst : st' = _ := (congrArg Prod.snd (CResult.ok.inj h)).symm
      subst hst
      simp
    · split at h
      · exact CResult.noConfusion h
      · rename_i st3 hg0
        have h3 := growHeap_ok_none _ _ _ _ _ hg0
        have hst : st' = st3 := (congrArg Prod.snd (CResult.ok.inj h)).symm
        subst hst
        subst h3
        simp
      · rename_i nb st3 hg0
        obtain ⟨hnb, hheap, hbrk, hal, hmem, hax, hm, hf, hr, hsp, hc, hreq⟩ :=
          growHeap_ok_some _ _ _ _ _ _ hg0
        have hst : st' = _ := (congrArg Prod.snd (CResult.ok.inj h)).symm
        subst hst
        simp [hmem, hf]

/-! ### C7: calloc -/

/-- C7 (confirmed): `calloc(n, s)` computes `n * s` in wrapping machine
arithmetic with no overflow check — its behaviour depends only on
`n * s mod 2 ^ 64` — delegates to `malloc`, passes a `NULL` allocation
result through unchanged, and on success zero-fills the requested
region, so every byte of the returned region reads as zero. -/
theorem c7_calloc_zero_fills (strat : Strategy) (os : Bool) (st : AllocState) (n s : Nat) :
    (∀ n' s', n * s % U64 = n' * s' % U64 →
      calloc strat os st n s = calloc strat os st n' s') ∧
    (∀ st', malloc strat os st (n * s % U64) = .ok (none, st') →
      calloc strat os st n s = .ok (none, st')) ∧
    (∀ p stF, calloc strat os st n s = .ok (some p, stF) →
      ∀ k, k < n * s % U64 → stF.mem (p + k) = 0) := by
  refine ⟨fun n' s' hmul => ?_, fun st' hm => ?_, fun p stF hc k hk => ?_⟩
  · show callocCore (n * s % U64) (malloc strat os st (n * s % U64)) =
        callocCore (n' * s' % U64) (malloc strat os st (n' * s' % U64))
    rw [hmul]
  · show callocCore (n * s % U64) (malloc strat os st (n * s % U64)) = .ok (none, st')
    rw [hm]
    rfl
  · have hc' : callocCore (n * s % U64) (malloc strat os st (n * s % U64)) =
        .ok (some p, stF) := hc
    cases hmal : malloc strat os st (n * s % U64) with
    | abort =>
      rw [hmal] at hc'
      exact CResult.noConfusion hc'
    | ok pr =>
      obtain ⟨p0, st0⟩ := pr
      rw [hmal] at hc'
      cases p0 with
      | none =>
        simp only [callocCore] at hc'
        exact Option.noConfusion (congrArg Prod.fst (CResult.ok.inj hc'))
      | some q =>
        simp only [callocCore] at hc'
        have hq : q = p := Option.some.inj (congrArg Prod.fst (CResult.ok.inj hc'))
        have hst : stF = _ := (congrArg Prod.snd (CResult.ok.inj hc')).symm
        subst hq
        subst hst
        simp only [memSet]
        rw [if_pos ⟨Nat.le_add_right _ _, by omega⟩]

/-- C7 witness: wrap-around at `2 ^ 63 * 2`, and a zero byte read out of
the region returned by `calloc(2, 4)`. -/
theorem c7_calloc_zero_fills_witness :
    (2 ^ 63 * 2 % U64 = 0 * 0 % U64 ∧
      calloc .firstFit true initState (2 ^ 63) 2 = calloc .firstFit true initState 0 0) ∧
    (calloc .firstFit true initState 2 4 = .ok (some 65560, stC7w) ∧
      3 < 2 * 4 % U64 ∧ stC7w.mem (65560 + 3) = 0) :=
  ⟨⟨by decide, (c7_calloc_zero_fills .firstFit true initState (2 ^ 63) 2).1 0 0 (by decide)⟩,
   ⟨rfl, by decide,
    (c7_calloc_zero_fills .firstFit true initState 2 4).2.2 65560 stC7w rfl 3 (by decide)⟩⟩

/-! ### C6: realloc -/

/-- Unfolding a successful `free`: the block is marked free and one
coalescing pass runs. -/
theorem free_of_markFreePtr (st : AllocState) (p : Nat) (l' : List Block)
    (hp : p ≠ 0) (hml : markFreePtr st.heapList p = some l') :
    free st p = .ok { st with
      heapList := (coalescePass l').1
      num_coalesces := st.num_coalesces + (coalescePass l').2
      num_frees := st.num_frees + 1 } := by
  unfold free
  rw [if_neg hp, hml]

/-- C6 (confirmed): `realloc` with a `NULL` pointer behaves exactly as
`malloc`; with size 0 it frees the pointer and returns a `NULL` result;
otherwise, when the inner allocation succeeds, it returns the fresh
pointer, the first `min(oldSize, newSize)` bytes of the new payload
equal the old payload's former bytes, and the old block is freed
(`num_frees` increments; on inner-allocation failure the old block is
not freed). -/
theorem c6_realloc_semantics (strat : Strategy) (os : Bool) (st : AllocState) (p s : Nat) :
    (realloc strat os st 0 s = malloc strat os st s) ∧
    (p ≠ 0 → realloc strat os st p 0 =
      (match free st p with
       | .abort => .abort
       | .ok st' => .ok (none, st'))) ∧
    (∀ b p' st1, p ≠ 0 → s ≠ 0 →
      lookupBlock st.heapList p = some b → b.free = false →
      malloc strat os st s = .ok (some p', st1) →
      lookupBlock st1.heapList p = some b →
      ∃ stF, realloc strat os st p s = .ok (some p', stF) ∧
        (∀ k, k < min b.size s → stF.mem (p' + k) = st.mem (p + k)) ∧
        stF.num_frees = st.num_frees + 1) := by
  refine ⟨?_, fun hp => ?_, fun b p' st1 hp hs hb hbf hm hb1 => ?_⟩
  · show (if (0 : Nat) = 0 then malloc strat os st s
          else if s = 0 then freeRet (free st 0)
          else reallocCore 0 s (malloc strat os st s)) = malloc strat os st s
    rw [if_pos rfl]
  · have h0 : realloc strat os st p 0 = freeRet (free st p) := by
      show (if p = 0 then malloc strat os st 0
            else if (0 : Nat) = 0 then freeRet (free st p)
            else reallocCore p 0 (malloc strat os st 0)) = freeRet (free st p)
      rw [if_neg hp, if_pos rfl]
    rw [h0]
    cases hf : free st p with
    | abort => rfl
    | ok st2 => rfl
  · have hre : realloc strat os st p s = reallocCore p s (malloc strat os st s) := by
      show (if p = 0 then malloc strat os st s
            else if s = 0 then freeRet (free st p)
            else reallocCore p s (malloc strat os st s)) =
          reallocCore p s (malloc strat os st s)
      rw [if_neg hp, if_neg hs]
    obtain ⟨hmem1, hfr1⟩ := malloc_mem_frees strat os st s _ st1 hm
    obtain ⟨l', hml⟩ := Option.isSome_iff_exists.mp
      (markFreePtr_isSome_of_alloc st1.heapList p b hb1 hbf)
    refine ⟨{ st1 with
              mem := memCopy st1.mem p p' (min b.size s)
              heapList := (coalescePass l').1
              num_coalesces := st1.num_coalesces + (coalescePass l').2
              num_frees := st1.num_frees + 1 }, ?_, ?_, ?_⟩
    · rw [hre, hm]
      simp only [reallocCore, hb1]
      rw [free_of_markFreePtr
        { st1 with mem := memCopy st1.mem p p' (min b.size s) } p l' hp hml]
    · intro k hk
      show memCopy st1.mem p p' (min b.size s) (p' + k) = st.mem (p + k)
      unfold memCopy
      rw [if_pos ⟨Nat.le_add_right _ _, by omega⟩]
      rw [Nat.add_sub_cancel_left, hmem1]
    · show st1.num_frees + 1 = st.num_frees + 1
      rw [hfr1]

/-- C6 witness: growing an 8-byte allocation to 16 bytes; the 8 old
bytes are preserved and the old block is freed. -/
theorem c6_realloc_semantics_witness :
    ((65560 : Nat) ≠ 0 ∧ (16 : Nat) ≠ 0 ∧
      lookupBlock stC6w.heapList 65560 = some ⟨65536, 8, false⟩ ∧
      (⟨65536, 8, false⟩ : Block).free = false ∧
      malloc .firstFit true stC6w 16 = .ok (some 65592, stC6w1) ∧
      lookupBlock stC6w1.heapList 65560 = some ⟨65536, 8, false⟩) ∧
    (∃ stF, realloc .firstFit true stC6w 65560 16 = .ok (some 65592, stF) ∧
      (∀ k, k < min (8 : Nat) 16 → stF.mem (65592 + k) = stC6w.mem (65560 + k)) ∧
      stF.num_frees = stC6w.num_frees + 1) :=
  ⟨⟨by decide, by decide, by decide, by decide, rfl, by decide⟩,
   (c6_realloc_semantics .firstFit true stC6w 65560 16).2.2 ⟨65536, 8, false⟩ 65592 stC6w1
     (by decide) (by decide) (by decide) (by decide) rfl (by decide)⟩

/-! ### C4: splitting an oversized free block -/

/-- Splitting then marking the block at `j` allocated, as an explicit
list surgery. -/
theorem markAlloc_splitBlock (a : Nat) (l : List Block) (j : Nat) (b : Block)
    (hb : l.get? j = some b) :
    markAlloc (splitBlock a l j) j =
      l.take j ++
        [⟨b.addr, a, false⟩, ⟨b.addr + HDR + a, b.size - a - HDR, true⟩] ++
        l.drop (j + 1) := by
  induction l generalizing j with
  | nil => simp at hb
  | cons x r ih =>
    cases j with
    | zero =>
      simp only [List.get?_cons_zero, Option.some.injEq] at hb
      subst hb
      simp [splitBlock, markAlloc]
    | succ j' =>
      simp only [List.get?_cons_succ] at hb
      simp [splitBlock, markAlloc, ih j' hb]

/-- Marking the block at `j` allocated, as an explicit list surgery. -/
theorem markAlloc_eq (l : List Block) (j : Nat) (b : Block) (hb : l.get? j = some b) :
    markAlloc l j = l.take j ++ [⟨b.addr, b.size, false⟩] ++ l.drop (j + 1) := by
  induction l generalizing j with
  | nil => simp at hb
  | cons x r ih =>
    cases j with
    | zero =>
      simp only [List.get?_cons_zero, Option.some.injEq] at hb
      subst hb
      simp [markAlloc]
    | succ j' =>
      simp only [List.get?_cons_succ] at hb
      simp [markAlloc, ih j' hb]

/-- C4 (confirmed): when the scan finds block `j` and its size exceeds
the rounded request by more than one header, `malloc` splits it: block
`j` shrinks to exactly the rounded request and is returned allocated,
the carved-off block (leftover minus one header, marked free) is spliced
immediately after it, and the two sizes plus one header sum to the
original size; when the excess is at most one header no split happens
and the block keeps its size. -/
theorem c4_malloc_split (strat : Strategy) (os : Bool) (st : AllocState) (s j : Nat)
    (b : Block) (hs : ALIGN4 s ≠ 0)
    (hf : (findFreeBlock strat st.heapList st.actualLast (ALIGN4 s)).1 = some j)
    (hb : st.heapList.get? j = some b) :
    (ALIGN4 s + HDR < b.size →
      ∃ st', malloc strat os st s = .ok (some (b.addr + HDR), st') ∧
        st'.heapList = st.heapList.take j ++
          [⟨b.addr, ALIGN4 s, false⟩,
           ⟨b.addr + HDR + ALIGN4 s, b.size - ALIGN4 s - HDR, true⟩] ++
          st.heapList.drop (j + 1) ∧
        ALIGN4 s + (b.size - ALIGN4 s - HDR) + HDR = b.size ∧
        st'.num_splits = st.num_splits + 1) ∧
    (b.size ≤ ALIGN4 s + HDR →
      ∃ st', malloc strat os st s = .ok (some (b.addr + HDR), st') ∧
        st'.heapList = st.heapList.take j ++ [⟨b.addr, b.size, false⟩] ++
          st.heapList.drop (j + 1) ∧
        st'.num_splits = st.num_splits) := by
  constructor
  · intro hcond
    simp only [malloc, regAtexit_heapList, regAtexit_actualLast, hs, hf, hb, if_neg hs,
      Option.getD_some, if_pos hcond]
    refine ⟨_, rfl, ?_, by omega, by simp⟩
    rw [markAlloc_splitBlock _ _ _ _ hb]
  · intro hcond
    have hcond' : ¬(ALIGN4 s + HDR < b.size) := by omega
    simp only [malloc, regAtexit_heapList, regAtexit_actualLast, hs, hf, hb, if_neg hs,
      Option.getD_some, if_neg hcond']
    refine ⟨_, rfl, ?_, by simp⟩
    rw [markAlloc_eq _ _ _ hb]

/-- C4 witness: an 8-byte request served from a free 64-byte block is
split into an 8-byte allocated block and a 32-byte free leftover. -/
theorem c4_malloc_split_witness :
    (ALIGN4 8 ≠ 0 ∧
      (findFreeBlock .firstFit stC4w.heapList stC4w.actualLast (ALIGN4 8)).1 = some 0 ∧
      stC4w.heapList.get? 0 = some ⟨100, 64, true⟩ ∧ ALIGN4 8 + HDR < 64) ∧
    (∃ st', malloc .firstFit true stC4w 8 = .ok (some (100 + HDR), st') ∧
      st'.heapList = stC4w.heapList.take 0 ++
        [⟨100, ALIGN4 8, false⟩, ⟨100 + HDR + ALIGN4 8, 64 - ALIGN4 8 - HDR, true⟩] ++
        stC4w.heapList.drop 1 ∧
      ALIGN4 8 + (64 - ALIGN4 8 - HDR) + HDR = 64 ∧
      st'.num_splits = stC4w.num_splits + 1) :=
  ⟨⟨by decide, by decide, by decide, by decide⟩,
   (c4_malloc_split .firstFit true stC4w 8 0 ⟨100, 64, true⟩ (by decide) (by decide)
     (by decide)).1 (by decide)⟩

/-! ### C3: the placement strategies -/

/-- A first-fit scan that reports no match saw no qualifying block. -/
theorem findFirstAux_none (size : Nat) (l : List Block) (i : Nat) (last : Option Nat)
    (h : (findFirstAux size l i last).1 = none) :
    ∀ k b, l.get? k = some b → qualifies b size = false := by
  induction l generalizing i last with
  | nil => intro k b hk; simp at hk
  | cons x r ih =>
    intro k b hk
    by_cases hq : qualifies x size
    · simp [findFirstAux, hq] at h
    · cases k with
      | zero =>
        simp only [List.get?_cons_zero, Option.some.injEq] at hk
        subst hk
        simpa using hq
      | succ k' =>
        simp only [List.get?_cons_succ] at hk
        refine ih (i + 1) (some i) ?_ k' b hk
        simpa [findFirstAux, hq] using h

/-- A first-fit match is the first qualifying block in list order. -/
theorem findFirstAux_some (size : Nat) (l : List Block) (i : Nat) (last : Option Nat)
    (j : Nat) (h : (findFirstAux size l i last).1 = some j) :
    ∃ k, j = i + k ∧ (∃ b, l.get? k = some b ∧ qualifies b size = true) ∧
      ∀ k' c, k' < k → l.get? k' = some c → qualifies c size = false := by
  induction l generalizing i last j with
  | nil => simp [findFirstAux] at h
  | cons x r ih =>
    by_cases hq : qualifies x size
    · simp only [findFirstAux, hq, if_true, Option.some.injEq] at h
      exact ⟨0, by omega, ⟨x, by simp, hq⟩, fun k' c hk' => by omega⟩
    · simp only [findFirstAux, hq, if_false] at h
      obtain ⟨k, hk1, hk2, hk3⟩ := ih (i + 1) (some i) j (by simpa [hq] using h)
      refine ⟨k + 1, by omega, by simpa using hk2, ?_⟩
      intro k' c hk' hkc
      cases k' with
      | zero =>
        simp only [List.get?_cons_zero, Option.some.injEq] at hkc
        subst hkc
        simpa using hq
      | succ k'' =>
        simp only [List.get?_cons_succ] at hkc
        exact hk3 k'' c (by omega) hkc

/-- Converting a small nonnegative value to `int` and back to `size_t`
is the identity. -/
theorem sizeTOfInt_ofNat (s : Nat) (hs : s < U64) : sizeTOfInt (s : Nat) = s := by
  unfold sizeTOfInt
  rw [Int.emod_eq_of_lt (by positivity) (by exact_mod_cast hs)]
  simp

/-- Truncating a value below `2 ^ 31` to `int` is the identity. -/
theorem intOfSize_small (s : Nat) (hs : s < 2 ^ 31) : intOfSize s = (s : Int) := by
  unfold intOfSize
  rw [Nat.mod_eq_of_lt (by omega)]
  rw [if_pos hs]

/-- If `bestPure` finds nothing, no qualifying block beats the bound. -/
theorem bestPure_none (size : Nat) (l : List Block) (s : Nat)
    (h : bestPure size l s = none) :
    ∀ k b, l.get? k = some b → qualifies b size = true → ¬b.size < s := by
  induction l generalizing s with
  | nil => intro k b hk; simp at hk
  | cons x r ih =>
    intro k b hk hq
    by_cases hc : qualifies x size && decide (x.size < s)
    · rw [bestPure, if_pos hc] at h
      cases hbp : bestPure size r x.size <;> rw [hbp] at h <;> simp at h
    · rw [bestPure, if_neg hc] at h
      rw [Option.map_eq_none'] at h
      cases k with
      | zero =>
        simp only [List.get?_cons_zero, Option.some.injEq] at hk
        subst hk
        intro hlt
        exact hc (by simp [hq, hlt])
      | succ k' =>
        simp only [List.get?_cons_succ] at hk
        exact ih s h k' b hk hq

/-- A `bestPure` result is a qualifying block below the bound whose size
is least among all such blocks. -/
theorem bestPure_some (size : Nat) (l : List Block) (s k : Nat)
    (h : bestPure size l s = some k) :
    ∃ b, l.get? k = some b ∧ qualifies b size = true ∧ b.size < s ∧
      ∀ k' c, l.get? k' = some c → qualifies c size = true → c.size < s →
        b.size ≤ c.size := by
  induction l generalizing s k with
  | nil => simp [bestPure] at h
  | cons x r ih =>
    by_cases hc : qualifies x size && decide (x.size < s)
    · have hq : qualifies x size = true := (Bool.and_eq_true_iff.mp hc).1
      have hlt : x.size < s := by
        have := (Bool.and_eq_true_iff.mp hc).2
        exact of_decide_eq_true this
      rw [bestPure, if_pos hc] at h
      cases hbp : bestPure size r x.size with
      | none =>
        rw [hbp] at h
        simp only [Option.some.injEq] at h
        subst h
        refine ⟨x, by simp, hq, hlt, ?_⟩
        intro k' c hk' hqc hlc
        cases k' with
        | zero =>
          simp only [List.get?_cons_zero, Option.some.injEq] at hk'
          subst hk'
          exact le_refl _
        | succ k'' =>
          simp only [List.get?_cons_succ] at hk'
          have := bestPure_none size r x.size hbp k'' c hk' hqc
          omega
      | some k0 =>
        rw [hbp] at h
        simp only [Option.some.injEq] at h
        subst h
        obtain ⟨b, hb1, hb2, hb3, hb4⟩ := ih x.size k0 hbp
        refine ⟨b, by simpa using hb1, hb2, by omega, ?_⟩
        intro k' c hk' hqc hlc
        cases k' with
        | zero =>
          simp only [List.get?_cons_zero, Option.some.injEq] at hk'
          subst hk'
          omega
        | succ k'' =>
          simp only [List.get?_cons_succ] at hk'
          by_cases hcx : c.size < x.size
          · exact hb4 k'' c hk' hqc hcx
          · omega
    · rw [bestPure, if_neg hc] at h
      rw [Option.map_eq_some'] at h
      obtain ⟨k0, hk0, hk0'⟩ := h
      subst hk0'
      obtain ⟨b, hb1, hb2, hb3, hb4⟩ := ih s k0 hk0
      refine ⟨b, by simpa using hb1, hb2, hb3, ?_⟩
      intro k' c hk' hqc hlc
      cases k' with
      | zero =>
        simp only [List.get?_cons_zero, Option.some.injEq] at hk'
        subst hk'
        exact absurd (by simp [hqc, hlc]) hc
      | succ k'' =>
        simp only [List.get?_cons_succ] at hk'
        exact hb4 k'' c hk' hqc hlc

/-- If `worstPure` finds nothing, no qualifying block exceeds the bound. -/
theorem worstPure_none (size : Nat) (l : List Block) (s : Nat)
    (h : worstPure size l s = none) :
    ∀ k b, l.get? k = some b → qualifies b size = true → ¬s < b.size := by
  induction l generalizing s with
  | nil => intro k b hk; simp at hk
  | cons x r ih =>
    intro k b hk hq
    by_cases hc : qualifies x size && decide (s < x.size)
    · rw [worstPure, if_pos hc] at h
      cases hbp : worstPure size r x.size <;> rw [hbp] at h <;> simp at h
    · rw [worstPure, if_neg hc] at h
      rw [Option.map_eq_none'] at h
      cases k with
      | zero =>
        simp only [List.get?_cons_zero, Option.some.injEq] at hk
        subst hk
        intro hlt
        exact hc (by simp [hq, hlt])
      | succ k' =>
        simp only [List.get?_cons_succ] at hk
        exact ih s h k' b hk hq

/-- A `worstPure` result is a qualifying block above the bound whose
size is greatest among all such blocks. -/
theorem worstPure_some (size : Nat) (l : List Block) (s k : Nat)
    (h : worstPure size l s = some k) :
    ∃ b, l.get? k = some b ∧ qualifies b size = true ∧ s < b.size ∧
      ∀ k' c, l.get? k' = some c → qualifies c size = true → s < c.size →
        c.size ≤ b.size := by
  induction l generalizing s k with
  | nil => simp [worstPure] at h
  | cons x r ih =>
    by_cases hc : qualifies x size && decide (s < x.size)
    · have hq : qualifies x size = true := (Bool.and_eq_true_iff.mp hc).1
      have hlt : s < x.size := by
        have := (Bool.and_eq_true_iff.mp hc).2
        exact of_decide_eq_true this
      rw [worstPure, if_pos hc] at h
      cases hbp : worstPure size r x.size with
      | none =>
        rw [hbp] at h
        simp only [Option.some.injEq] at h
        subst h
        refine ⟨x, by simp, hq, hlt, ?_⟩
        intro k' c hk' hqc hlc
        cases k' with
        | zero =>
          simp only [List.get?_cons_zero, Option.some.injEq] at hk'
          subst hk'
          exact le_refl _
        | succ k'' =>
          simp only [List.get?_cons_succ] at hk'
          have := worstPure_none size r x.size hbp k'' c hk' hqc
          omega
      | some k0 =>
        rw [hbp] at h
        simp only [Option.some.injEq] at h
        subst h
        obtain ⟨b, hb1, hb2, hb3, hb4⟩ := ih x.size k0 hbp
        refine ⟨b, by simpa using hb1, hb2, by omega, ?_⟩
        intro k' c hk' hqc hlc
        cases k' with
        | zero =>
          simp only [List.get?_cons_zero, Option.some.injEq] at hk'
          subst hk'
          omega
        | succ k'' =>
          simp only [List.get?_cons_succ] at hk'
          by_cases hcx : x.size < c.size
          · exact hb4 k'' c hk' hqc hcx
          · omega
    · rw [worstPure, if_neg hc] at h
      rw [Option.map_eq_some'] at h
      obtain ⟨k0, hk0, hk0'⟩ := h
      subst hk0'
      obtain ⟨b, hb1, hb2, hb3, hb4⟩ := ih s k0 hk0
      refine ⟨b, by simpa using hb1, hb2, hb3, ?_⟩
      intro k' c hk' hqc hlc
      cases k' with
      | zero =>
        simp only [List.get?_cons_zero, Option.some.injEq] at hk'
        subst hk'
        exact absurd (by simp [hqc, hlc]) hc
      | succ k'' =>
        simp only [List.get?_cons_succ] at hk'
        exact hb4 k'' c hk' hqc hlc

/-- With every size exactly representable in `int` (below `INT_MAX`),
the `BEST == 0` scan computes `bestPure`. -/
theorem findBestAux_eq_pure (size : Nat) (l : List Block) (i s : Nat)
    (best last : Option Nat) (hsle : s ≤ INT_MAX)
    (hbound : ∀ b ∈ l, b.size < INT_MAX) :
    (findBestAux size l i ((s : Nat) : Int) best last).1 =
      (match bestPure size l s with
       | none => best
       | some k => some (i + k)) := by
  induction l generalizing i s best last with
  | nil => simp [findBestAux, bestPure]
  | cons x r ih =>
    have hx : x.size < INT_MAX := hbound x (by simp)
    have hr : ∀ b ∈ r, b.size < INT_MAX := fun b hb => hbound b (by simp [hb])
    have hIU : INT_MAX < U64 := by norm_num [INT_MAX, U64]
    have hconv : sizeTOfInt ((s : Nat) : Int) = s := sizeTOfInt_ofNat s (by omega)
    have hx31 : x.size < 2 ^ 31 := by
      have : INT_MAX ≤ 2 ^ 31 := by norm_num [INT_MAX]
      omega
    by_cases hc : qualifies x size && decide (x.size < s)
    · simp only [findBestAux, hconv, if_pos hc]
      rw [intOfSize_small x.size hx31]
      rw [ih (i + 1) x.size (some i) (some i) (by omega) hr]
      conv_rhs => rw [bestPure, if_pos hc]
      cases hbp : bestPure size r x.size with
      | none => simp
      | some k =>
        simp only [Option.some.injEq]
        omega
    · simp only [findBestAux, hconv, if_neg hc]
      rw [ih (i + 1) s best (some i) hsle hr]
      conv_rhs => rw [bestPure, if_neg hc]
      cases hbp : bestPure size r s with
      | none => simp
      | some k =>
        simp only [Option.map_some', Option.some.injEq]
        omega

/-- With every size exactly representable in `int`, the `WORST == 0`
scan computes `worstPure`. -/
theorem findWorstAux_eq_pure (size : Nat) (l : List Block) (i s : Nat)
    (best last : Option Nat) (hsle : s ≤ INT_MAX)
    (hbound : ∀ b ∈ l, b.size < INT_MAX) :
    (findWorstAux size l i ((s : Nat) : Int) best last).1 =
      (match worstPure size l s with
       | none => best
       | some k => some (i + k)) := by
  induction l generalizing i s best last with
  | nil => simp [findWorstAux, worstPure]
  | cons x r ih =>
    have hx : x.size < INT_MAX := hbound x (by simp)
    have hr : ∀ b ∈ r, b.size < INT_MAX := fun b hb => hbound b (by simp [hb])
    have hIU : INT_MAX < U64 := by norm_num [INT_MAX, U64]
    have hconv : sizeTOfInt ((s : Nat) : Int) = s := sizeTOfInt_ofNat s (by omega)
    have hx31 : x.size < 2 ^ 31 := by
      have : INT_MAX ≤ 2 ^ 31 := by norm_num [INT_MAX]
      omega
    by_cases hc : qualifies x size && decide (s < x.size)
    · simp only [findWorstAux, hconv, if_pos hc]
      rw [intOfSize_small x.size hx31]
      rw [ih (i + 1) x.size (some i) (some i) (by omega) hr]
      conv_rhs => rw [worstPure, if_pos hc]
      cases hbp : worstPure size r x.size with
      | none => simp
      | some k =>
        simp only [Option.some.injEq]
        omega
    · simp only [findWorstAux, hconv, if_neg hc]
      rw [ih (i + 1) s best (some i) hsle hr]
      conv_rhs => rw [worstPure, if_neg hc]
      cases hbp : worstPure size r s with
      | none => simp
      | some k =>
        simp only [Option.map_some', Option.some.injEq]
        omega

/-- When the first-fit scan finds no match, `last` points at the final
block of the list (the true tail). -/
theorem findFirstAux_last (size : Nat) (l : List Block) (i : Nat) (last : Option Nat)
    (h : (findFirstAux size l i last).1 = none) :
    (findFirstAux size l i last).2 =
      if l.isEmpty then last else some (i + l.length - 1) := by
  induction l generalizing i last with
  | nil => simp [findFirstAux]
  | cons x r ih =>
    by_cases hq : qualifies x size
    · simp [findFirstAux, hq] at h
    · have h' : (findFirstAux size r (i + 1) (some i)).1 = none := by
        simpa [findFirstAux, hq] using h
      have hstep : findFirstAux size (x :: r) i last =
          findFirstAux size r (i + 1) (some i) := by
        simp [findFirstAux, hq]
      rw [hstep, ih (i + 1) (some i) h']
      cases r with
      | nil => simp
      | cons y t =>
        simp only [List.isEmpty_cons, Bool.false_eq_true, if_false, List.length_cons,
          Option.some.injEq]
        omega

/-- The best-fit scan always walks the whole list, so `last` ends at the
true tail. -/
theorem findBestAux_last (size : Nat) (l : List Block) (i : Nat) (sm : Int)
    (best last : Option Nat) :
    (findBestAux size l i sm best last).2 =
      if l.isEmpty then last else some (i + l.length - 1) := by
  induction l generalizing i sm best last with
  | nil => simp [findBestAux]
  | cons x r ih =>
    by_cases hc : qualifies x size && decide (x.size < sizeTOfInt sm)
    · simp only [findBestAux, if_pos hc]
      rw [ih]
      cases r with
      | nil => simp
      | cons y t =>
        simp only [List.isEmpty_cons, Bool.false_eq_true, if_false, List.length_cons,
          Option.some.injEq]
        omega
    · simp only [findBestAux, if_neg hc]
      rw [ih]
      cases r with
      | nil => simp
      | cons y t =>
        simp only [List.isEmpty_cons, Bool.false_eq_true, if_false, List.length_cons,
          Option.some.injEq]
        omega

/-- The worst-fit scan always walks the whole list, so `last` ends at
the true tail. -/
theorem findWorstAux_last (size : Nat) (l : List Block) (i : Nat) (sm : Int)
    (best last : Option Nat) :
    (findWorstAux size l i sm best last).2 =
      if l.isEmpty then last else some (i + l.length - 1) := by
  induction l generalizing i sm best last with
  | nil => simp [findWorstAux]
  | cons x r ih =>
    by_cases hc : qualifies x size && decide (sizeTOfInt sm < x.size)
    · simp only [findWorstAux, if_pos hc]
      rw [ih]
      cases r with
      | nil => simp
      | cons y t =>
        simp only [List.isEmpty_cons, Bool.false_eq_true, if_false, List.length_cons,
          Option.some.injEq]
        omega
    · simp only [findWorstAux, if_neg hc]
      rw [ih]
      cases r with
      | nil => simp
      | cons y t =>
        simp only [List.isEmpty_cons, Bool.false_eq_true, if_false, List.length_cons,
          Option.some.injEq]
        omega

/-- A qualifying block is at least as large as the target. -/
theorem qualifies_le (b : Block) (size : Nat) (h : qualifies b size = true) :
    size ≤ b.size :=
  of_decide_eq_true (Bool.and_eq_true_iff.mp h).2

/-- C3 counterexample: under best fit, a qualifying free block of size
`INT_MAX` is never selected — the `int smallest` tracker starts at
`INT_MAX` and the size comparison is strict — so the scan reports no
block even though a qualifying block exists. -/
theorem c3_best_fit_int_max_counterexample :
    (findFreeBlock .bestFit [⟨100, 2 ^ 31 - 1, true⟩] none 4).1 = none ∧
    qualifies ⟨100, 2 ^ 31 - 1, true⟩ 4 = true :=
  ⟨by decide, by decide⟩

/-- C3 (amended): for a nonzero target (as `malloc` always passes) and a
heap whose block sizes are all below `INT_MAX`, `findFreeBlock` reports
no block only when no block satisfies `free && size >= target`; a
first-fit result is the first qualifying block in list order, a best-fit
result is a qualifying block of least size, and a worst-fit result is a
qualifying block of greatest size.  (Without the size bound the
`int`-typed trackers of the best/worst scans misbehave — see the
counterexample.) -/
theorem c3_strategy_choice (heap : List Block) (cursor : Option Nat) (size : Nat)
    (hpos : 0 < size) (hbound : ∀ b ∈ heap, b.size < INT_MAX) :
    (((findFreeBlock .firstFit heap cursor size).1 = none →
        ∀ k b, heap.get? k = some b → qualifies b size = false) ∧
      ∀ j, (findFreeBlock .firstFit heap cursor size).1 = some j →
        ∃ b, heap.get? j = some b ∧ qualifies b size = true ∧
          ∀ k c, k < j → heap.get? k = some c → qualifies c size = false) ∧
    (((findFreeBlock .bestFit heap cursor size).1 = none →
        ∀ k b, heap.get? k = some b → qualifies b size = false) ∧
      ∀ j, (findFreeBlock .bestFit heap cursor size).1 = some j →
        ∃ b, heap.get? j = some b ∧ qualifies b size = true ∧
          ∀ k c, heap.get? k = some c → qualifies c size = true → b.size ≤ c.size) ∧
    (((findFreeBlock .worstFit heap cursor size).1 = none →
        ∀ k b, heap.get? k = some b → qualifies b size = false) ∧
      ∀ j, (findFreeBlock .worstFit heap cursor size).1 = some j →
        ∃ b, heap.get? j = some b ∧ qualifies b size = true ∧
          ∀ k c, heap.get? k = some c → qualifies c size = true → c.size ≤ b.size) := by
  have hbest := findBestAux_eq_pure size heap 0 INT_MAX none (initLast heap)
    (le_refl _) hbound
  have hworst := findWorstAux_eq_pure size heap 0 0 none (initLast heap)
    (by norm_num [INT_MAX]) hbound
  rw [Nat.cast_zero] at hworst
  refine ⟨⟨?_, ?_⟩, ⟨?_, ?_⟩, ⟨?_, ?_⟩⟩
  · intro h k b hk
    simp only [findFreeBlock] at h
    exact findFirstAux_none size heap 0 (initLast heap) h k b hk
  · intro j hj
    simp only [findFreeBlock] at hj
    obtain ⟨k, hk1, ⟨b, hb1, hb2⟩, hk3⟩ := findFirstAux_some size heap 0 _ j hj
    subst hk1
    exact ⟨b, by simpa using hb1, hb2, fun k' c hk' hkc => hk3 k' c (by omega) hkc⟩
  · intro h k b hk
    simp only [findFreeBlock] at h
    rw [hbest] at h
    cases hbp : bestPure size heap INT_MAX with
    | none =>
      cases hq : qualifies b size with
      | false => rfl
      | true =>
        exact absurd (hbound b (List.get?_mem hk))
          (bestPure_none size heap INT_MAX hbp k b hk hq)
    | some k0 =>
      rw [hbp] at h
      simp at h
  · intro j hj
    simp only [findFreeBlock] at hj
    rw [hbest] at hj
    cases hbp : bestPure size heap INT_MAX with
    | none =>
      rw [hbp] at hj
      simp at hj
    | some k0 =>
      rw [hbp] at hj
      simp only [Option.some.injEq, Nat.zero_add] at hj
      subst hj
      obtain ⟨b, hb1, hb2, hb3, hb4⟩ := bestPure_some size heap INT_MAX k0 hbp
      refine ⟨b, hb1, hb2, ?_⟩
      intro k c hk hqc
      exact hb4 k c hk hqc (hbound c (List.get?_mem hk))
  · intro h k b hk
    simp only [findFreeBlock] at h
    rw [hworst] at h
    cases hbp : worstPure size heap 0 with
    | none =>
      cases hq : qualifies b size with
      | false => rfl
      | true =>
        have hle := qualifies_le b size hq
        exact absurd (by omega) (worstPure_none size heap 0 hbp k b hk hq)
    | some k0 =>
      rw [hbp] at h
      simp at h
  · intro j hj
    simp only [findFreeBlock] at hj
    rw [hworst] at hj
    cases hbp : worstPure size heap 0 with
    | none =>
      rw [hbp] at hj
      simp at hj
    | some k0 =>
      rw [hbp] at hj
      simp only [Option.some.injEq, Nat.zero_add] at hj
      subst hj
      obtain ⟨b, hb1, hb2, hb3, hb4⟩ := worstPure_some size heap 0 k0 hbp
      refine ⟨b, hb1, hb2, ?_⟩
      intro k c hk hqc
      have hle := qualifies_le c size hqc
      exact hb4 k c hk hqc (by omega)

/-- C3 witness: on a heap with free blocks of sizes 8 and 16, first fit
and best fit pick the 8-byte block and worst fit picks the 16-byte one,
which is maximal among qualifiers. -/
theorem c3_strategy_choice_witness :
    ((0 : Nat) < 4 ∧ ∀ b ∈ heapC3w, b.size < INT_MAX) ∧
    ((findFreeBlock .firstFit heapC3w none 4).1 = some 0 ∧
      (findFreeBlock .bestFit heapC3w none 4).1 = some 0 ∧
      (findFreeBlock .worstFit heapC3w none 4).1 = some 1) ∧
    (∃ b, heapC3w.get? 1 = some b ∧ qualifies b 4 = true ∧
      ∀ k c, heapC3w.get? k = some c → qualifies c 4 = true → c.size ≤ b.size) :=
  ⟨⟨by decide, by decide⟩, ⟨by decide, by decide, by decide⟩,
   (c3_strategy_choice heapC3w none 4 (by decide) (by decide)).2.2.2 1 (by decide)⟩

/-! ### C9: list-structure lemmas -/

/-- Prepend a block whose extent reaches the head of `L`. -/
theorem contiguousB_cons_of (x : Block) (L : List Block)
    (hL : contiguousB L = true)
    (hhd : headAddr L = some (x.addr + HDR + x.size) ∨ L = []) :
    contiguousB (x :: L) = true := by
  cases L with
  | nil => rfl
  | cons y t =>
    rcases hhd with hhd | hhd
    · simp only [headAddr, List.head?_cons, Option.map_some', Option.some.injEq] at hhd
      show ((y.addr == x.addr + HDR + x.size) && contiguousB (y :: t)) = true
      simp [hhd, hL]
    · exact absurd hhd (by simp)

/-- `endB` of a cons with nonempty tail. -/
theorem endB_cons_ne (x : Block) (L : List Block) (h : L ≠ []) :
    endB (x :: L) = endB L := by
  cases L with
  | nil => exact absurd rfl h
  | cons y t => rfl

/-- Appending a list that starts where `L` ends keeps contiguity. -/
theorem contiguousB_append (L : List Block) (y : Block) (t : List Block)
    (hL : contiguousB L = true) (he : endB L = some y.addr)
    (hr : contiguousB (y :: t) = true) :
    contiguousB (L ++ y :: t) = true := by
  induction L with
  | nil => simpa using hr
  | cons x L' ih =>
    cases L' with
    | nil =>
      simp only [endB, Option.some.injEq] at he
      show ((y.addr == x.addr + HDR + x.size) && contiguousB (y :: t)) = true
      simp [he, hr]
    | cons x2 t2 =>
      have hL' : ((x2.addr == x.addr + HDR + x.size) && contiguousB (x2 :: t2)) = true := hL
      rw [Bool.and_eq_true] at hL'
      obtain ⟨hlink, hrest⟩ := hL'
      have he' : endB (x2 :: t2) = some y.addr := he
      have hrec := ih hrest he'
      rw [List.cons_append] at hrec
      show ((x2.addr == x.addr + HDR + x.size) && contiguousB (x2 :: (t2 ++ y :: t))) = true
      simp [hlink, hrec]

/-- `endB` skips over a prefix when the suffix is nonempty. -/
theorem endB_append_cons (L : List Block) (y : Block) (t : List Block) :
    endB (L ++ y :: t) = endB (y :: t) := by
  induction L with
  | nil => rfl
  | cons x L' ih =>
    cases L' with
    | nil => rfl
    | cons x2 t2 => exact ih

/-- A contiguous list is strictly address-ordered. -/
theorem addrOrdered_of_contiguous : ∀ l : List Block, contiguousB l = true →
    addrOrderedB l = true
  | [] => fun _ => rfl
  | [_] => fun _ => rfl
  | a :: b :: r => fun h => by
    have h' : ((b.addr == a.addr + HDR + a.size) && contiguousB (b :: r)) = true := h
    rw [Bool.and_eq_true] at h'
    obtain ⟨h1, h2⟩ := h'
    have hb : b.addr = a.addr + HDR + a.size := by simpa using h1
    show (decide (a.addr < b.addr) && addrOrderedB (b :: r)) = true
    rw [Bool.and_eq_true]
    have hH : 0 < HDR := by norm_num [HDR]
    exact ⟨decide_eq_true (by omega), addrOrdered_of_contiguous (b :: r) h2⟩

/-- Head address of the one-block surgery result. -/
theorem headAddr_surgery (r : List Block) (j : Nat) (b : Block) (mid : List Block)
    (hb : r.get? j = some b) (hmid : headAddr mid = some b.addr) :
    headAddr (r.take j ++ mid ++ r.drop (j + 1)) = headAddr r := by
  cases r with
  | nil => simp at hb
  | cons y t =>
    cases j with
    | zero =>
      simp only [List.get?_cons_zero, Option.some.injEq] at hb
      subst hb
      cases mid with
      | nil => simp [headAddr] at hmid
      | cons m mt =>
        simp only [headAddr, List.head?_cons, Option.map_some', Option.some.injEq] at hmid
        simp [headAddr, hmid]
    | succ j' =>
      simp [headAddr, List.take_succ_cons]

/-- Replacing the block at `j` by a contiguous segment with the same
start and the same end keeps the list contiguous. -/
theorem contiguousB_surgery (l : List Block) (j : Nat) (b : Block) (mid : List Block)
    (hb : l.get? j = some b) (hl : contiguousB l = true)
    (hmidhead : headAddr mid = some b.addr)
    (hmid : contiguousB mid = true)
    (hmidend : endB mid = some (b.addr + HDR + b.size)) :
    contiguousB (l.take j ++ mid ++ l.drop (j + 1)) = true := by
  induction l generalizing j with
  | nil => simp at hb
  | cons x r ih =>
    cases j with
    | zero =>
      simp only [List.get?_cons_zero, Option.some.injEq] at hb
      subst hb
      simp only [List.take_zero, List.nil_append, List.drop_succ_cons, List.drop_zero]
      cases r with
      | nil => simpa using hmid
      | cons y t =>
        have h' : ((y.addr == x.addr + HDR + x.size) && contiguousB (y :: t)) = true := hl
        rw [Bool.and_eq_true] at h'
        have hlink : y.addr = x.addr + HDR + x.size := by simpa using h'.1
        exact contiguousB_append mid y t hmid (by rw [hmidend, hlink]) h'.2
    | succ j' =>
      simp only [List.get?_cons_succ] at hb
      cases r with
      | nil => simp at hb
      | cons y t =>
        have h' : ((y.addr == x.addr + HDR + x.size) && contiguousB (y :: t)) = true := hl
        rw [Bool.and_eq_true] at h'
        show contiguousB (x :: ((y :: t).take j' ++ mid ++ (y :: t).drop (j' + 1))) = true
        apply contiguousB_cons_of
        · exact ih j' hb h'.2
        · left
          rw [headAddr_surgery (y :: t) j' b mid hb hmidhead]
          simp only [headAddr, List.head?_cons, Option.map_some', Option.some.injEq]
          simpa using h'.1

/-- The one-block surgery keeps the end address of the list. -/
theorem endB_surgery (l : List Block) (j : Nat) (b : Block) (mid : List Block)
    (hb : l.get? j = some b)
    (hmidend : endB mid = some (b.addr + HDR + b.size)) :
    endB (l.take j ++ mid ++ l.drop (j + 1)) = endB l := by
  induction l generalizing j with
  | nil => simp at hb
  | cons x r ih =>
    cases j with
    | zero =>
      simp only [List.get?_cons_zero, Option.some.injEq] at hb
      subst hb
      simp only [List.take_zero, List.nil_append, List.drop_succ_cons, List.drop_zero]
      cases r with
      | nil =>
        rw [List.append_nil, hmidend]
        rfl
      | cons y t =>
        rw [endB_append_cons]
        rfl
    | succ j' =>
      simp only [List.get?_cons_succ] at hb
      cases r with
      | nil => simp at hb
      | cons y t =>
        have hmidne : mid ≠ [] := by
          intro hemp
          rw [hemp] at hmidend
          exact Option.noConfusion hmidend
        have hREST : ((y :: t).take j' ++ mid ++ (y :: t).drop (j' + 1)) ≠ [] := by
          cases mid with
          | nil => exact absurd rfl hmidne
          | cons m mt => simp
        show endB (x :: ((y :: t).take j' ++ mid ++ (y :: t).drop (j' + 1))) = endB (x :: y :: t)
        rw [endB_cons_ne x _ hREST, ih j' hb]
        rfl

/-- `markAlloc` with an out-of-range index is the identity. -/
theorem markAlloc_oob (l : List Block) (j : Nat) (h : l.get? j = none) :
    markAlloc l j = l := by
  induction l generalizing j with
  | nil => rfl
  | cons x r ih =>
    cases j with
    | zero => simp at h
    | succ j' =>
      simp only [List.get?_cons_succ] at h
      simp [markAlloc, ih j' h]

/-- A successful `markFreePtr` is the one-block flag surgery at the
index of the (allocated) block with payload `p`. -/
theorem markFreePtr_eq (l : List Block) (p : Nat) (l' : List Block)
    (h : markFreePtr l p = some l') :
    ∃ j b, l.get? j = some b ∧ b.free = false ∧
      l' = l.take j ++ [⟨b.addr, b.size, true⟩] ++ l.drop (j + 1) := by
  induction l generalizing l' with
  | nil => simp [markFreePtr] at h
  | cons x r ih =>
    by_cases hx : x.addr + HDR = p
    · rw [markFreePtr, if_pos hx] at h
      by_cases hf : x.free
      · rw [if_pos hf] at h
        exact Option.noConfusion h
      · rw [if_neg hf] at h
        simp only [Option.some.injEq] at h
        subst h
        exact ⟨0, x, by simp, by simpa using hf, by simp⟩
    · rw [markFreePtr, if_neg hx] at h
      rw [Option.map_eq_some'] at h
      obtain ⟨r', hr', hl'⟩ := h
      subst hl'
      obtain ⟨j, b, hb1, hb2, hb3⟩ := ih r' hr'
      exact ⟨j + 1, b, by simpa using hb1, hb2, by simp [hb3]⟩

/-- Linking after the final index appends the new block. -/
theorem linkAfter_last (l : List Block) (nb : Block) (h : l ≠ []) :
    linkAfter l (l.length - 1) nb = l ++ [nb] := by
  induction l with
  | nil => exact absurd rfl h
  | cons x r ih =>
    cases r with
    | nil => rfl
    | cons y t =>
      have hlen : (x :: y :: t).length - 1 = ((y :: t).length - 1) + 1 := by
        simp only [List.length_cons]
        omega
      rw [hlen]
      show x :: linkAfter (y :: t) ((y :: t).length - 1) nb = x :: ((y :: t) ++ [nb])
      rw [ih (by simp)]

/-- The coalescing pass keeps the head address. -/
theorem coalescePass_headAddr (l : List Block) :
    headAddr (coalescePass l).1 = headAddr l := by
  cases l with
  | nil => rfl
  | cons b r =>
    cases r with
    | nil => rfl
    | cons c r2 =>
      by_cases hc : (b.free && c.free) = true
      · simp [coalescePass, hc, headAddr]
      · simp [coalescePass, hc, headAddr]

/-- The coalescing pass never empties a nonempty list. -/
theorem coalescePass_ne_nil (b : Block) (l : List Block) :
    (coalescePass (b :: l)).1 ≠ [] := by
  cases l with
  | nil => simp [coalescePass]
  | cons c r2 =>
    by_cases hc : (b.free && c.free) = true
    · simp [coalescePass, hc]
    · simp [coalescePass, hc]

/-- The coalescing pass of `free` preserves contiguity and the heap's
end address: each merge absorbs exactly the successor's header and
payload into the predecessor. -/
theorem coalescePass_keeps : ∀ l : List Block, contiguousB l = true →
    contiguousB (coalescePass l).1 = true ∧ endB (coalescePass l).1 = endB l
  | [] => fun _ => ⟨rfl, rfl⟩
  | [b] => fun _ => ⟨rfl, rfl⟩
  | b :: c :: r2 => fun h => by
    have h' : ((c.addr == b.addr + HDR + b.size) && contiguousB (c :: r2)) = true := h
    rw [Bool.and_eq_true] at h'
    obtain ⟨h1, h2⟩ := h'
    have hlink : c.addr = b.addr + HDR + b.size := by simpa using h1
    by_cases hc : (b.free && c.free) = true
    · have hr2 : contiguousB r2 = true := by
        cases r2 with
        | nil => rfl
        | cons d t =>
          have h'' : ((d.addr == c.addr + HDR + c.size) && contiguousB (d :: t)) = true := h2
          rw [Bool.and_eq_true] at h''
          exact h''.2
      obtain ⟨ihc, ihe⟩ := coalescePass_keeps r2 hr2
      simp only [coalescePass, hc, if_true]
      constructor
      · apply contiguousB_cons_of _ _ ihc
        cases r2 with
        | nil => right; rfl
        | cons d t =>
          left
          rw [coalescePass_headAddr]
          have hd : d.addr = c.addr + HDR + c.size := by
            have h'' : ((d.addr == c.addr + HDR + c.size) && contiguousB (d :: t)) = true := h2
            rw [Bool.and_eq_true] at h''
            simpa using h''.1
          simp only [headAddr, List.head?_cons, Option.map_some', Option.some.injEq]
          omega
      · cases r2 with
        | nil =>
          show endB [(⟨b.addr, b.size + c.size + HDR, b.free⟩ : Block)] = endB [b, c]
          simp only [endB, Option.some.injEq]
          omega
        | cons d t =>
          have hne : (coalescePass (d :: t)).1 ≠ [] := coalescePass_ne_nil d t
          rw [endB_cons_ne _ _ hne, ihe]
          rfl
    · obtain ⟨ihc, ihe⟩ := coalescePass_keeps (c :: r2) h2
      simp only [coalescePass, hc, Bool.false_eq_true, if_false]
      constructor
      · apply contiguousB_cons_of _ _ ihc
        left
        rw [coalescePass_headAddr]
        simp only [headAddr, List.head?_cons, Option.map_some', Option.some.injEq]
        omega
      · have hne : (coalescePass (c :: r2)).1 ≠ [] := coalescePass_ne_nil c r2
        rw [endB_cons_ne _ _ hne, ihe]
        rfl

/-- Only the next-fit branch can touch the cursor, and starting from a
`NULL` cursor it never assigns it (the assignment sits inside the loop
that starts at the cursor). -/
theorem findFreeBlock_cursor_none (strat : Strategy) (heap : List Block) (size : Nat) :
    (findFreeBlock strat heap none size).2.2 = none := by
  cases strat <;> rfl

/-- In every strategy, when no block matches, `last` ends at the true
tail of the list. -/
theorem findFreeBlock_none_last (strat : Strategy) (heap : List Block) (size : Nat)
    (h : (findFreeBlock strat heap none size).1 = none) :
    (findFreeBlock strat heap none size).2.1 =
      if heap.isEmpty then none else some (heap.length - 1) := by
  cases strat with
  | firstFit =>
    simp only [findFreeBlock] at h ⊢
    rw [findFirstAux_last size heap 0 (initLast heap) h]
    by_cases he : heap.isEmpty
    · simp [he, initLast]
    · simp [he]
  | bestFit =>
    simp only [findFreeBlock]
    rw [findBestAux_last]
    by_cases he : heap.isEmpty
    · simp [he, initLast]
    · simp [he]
  | worstFit =>
    simp only [findFreeBlock]
    rw [findWorstAux_last]
    by_cases he : heap.isEmpty
    · simp [he, initLast]
    · simp [he]
  | nextFit =>
    simp only [findFreeBlock, findNext] at h ⊢
    rw [findFirstAux_last size heap 0 (initLast heap) h]
    by_cases he : heap.isEmpty
    · simp [he, initLast]
    · simp [he]

end MemAlloc
